import Mathlib

/-!
Verification of the path/text rewriting core of
`raspbian-buster-gcc-8-cross-environment-install.py`.

The program's core manipulates POSIX path strings and the gcc "specs"
text.  We embed strings as lists of characters (`Str`) and translate the
relevant Python functions (`fix_absolute_links`, `write_gcc_specs` and its
inner `replace_with_path`, `main`) into executable Lean definitions.
-/

namespace RPiCross

/-- Strings are modelled as lists of characters. -/
abbrev Str := List Char

/-- Boolean test that `p` is a prefix of `s` (models Python `str.startswith`
and the anchored position test used by `str.replace`). -/
def strPre : Str → Str → Bool
  | [], _ => true
  | _ :: _, [] => false
  | a :: p, b :: s => decide (a = b) && strPre p s

/-- Boolean test that `p` is a suffix of `s` (models Python `str.endswith`). -/
def strSuf (p s : Str) : Bool := strPre p.reverse s.reverse

/-- Boolean test that `pat` occurs as a contiguous substring of `s`
(models Python `pat in s`). -/
def hasSubstr (s pat : Str) : Bool :=
  match s with
  | [] => pat.isEmpty
  | _ :: rest => strPre pat s || hasSubstr rest pat

/-- Models Python `s.replace(pat, rep)`: scan left to right and replace each
non-overlapping occurrence of `pat` by `rep`.  (The program only calls it
with the non-empty patterns `"%D"` and the chroot directory name; for an
empty pattern this model returns `s` unchanged.) -/
def replaceAll (s pat rep : Str) : Str :=
  match pat with
  | [] => s
  | p :: ps =>
    match s with
    | [] => []
    | c :: rest =>
      if strPre (p :: ps) (c :: rest) then
        rep ++ replaceAll ((c :: rest).drop (p :: ps).length) (p :: ps) rep
      else
        c :: replaceAll rest (p :: ps) rep
termination_by s.length
decreasing_by
  · simp [List.length_drop]; omega
  · simp

/-- Models Python `s.lstrip("/")`: remove every leading `/`. -/
def lstripSlash : Str → Str
  | [] => []
  | c :: rest => if c = '/' then lstripSlash rest else c :: rest

/-- Helper for splitting a string at a separator character: returns the
first segment and the list of remaining segments. -/
def splitCharCore (sep : Char) : Str → Str × List Str
  | [] => ([], [])
  | c :: rest =>
    if c = sep then
      ([], (splitCharCore sep rest).1 :: (splitCharCore sep rest).2)
    else
      (c :: (splitCharCore sep rest).1, (splitCharCore sep rest).2)

/-- Split a string at every occurrence of `sep` (segments may be empty). -/
def splitChar (sep : Char) (s : Str) : List Str :=
  (splitCharCore sep s).1 :: (splitCharCore sep s).2

/-- The non-empty `/`-separated components of a POSIX path string.
For an absolute path `s`, Python's `Path(s).parts` is `"/"` followed by
exactly these components. -/
def pathParts (s : Str) : List Str :=
  (splitChar '/' s).filter (fun sg => !sg.isEmpty)

/-- Join path components with `/` separators (no leading slash). -/
def joinComps : List Str → Str
  | [] => []
  | [c] => c
  | c :: cs => c ++ '/' :: joinComps cs

/-- An absolute POSIX path string built from its components. -/
def joinAbs (cs : List Str) : Str := '/' :: joinComps cs

/-- The final component of a path string (Python `Path(p).name` for a
normalized path). -/
def baseName (p : Str) : Str := (p.reverse.takeWhile (fun c => c ≠ '/')).reverse

/-- Drop the last `n` characters of a string. -/
def dropLastN (s : Str) (n : Nat) : Str := s.take (s.length - n)

/-- Boolean test that a string contains no newline character. -/
def noNL (s : Str) : Bool := s.all (fun c => c != '\n')

/-- The chroot directory, the fixed RootedTree root of the program:
`/var/chroot/raspbian_buster_armhf`. -/
def chroot_dir : Str := "/var/chroot/raspbian_buster_armhf".toList

/-- The components of `chroot_dir`. -/
def rootParts : List Str := pathParts chroot_dir

/-- Core of the eligibility regex of line 123,
`re.match(r".*(?:(?:\.so(?:\.\d+)?)|(?:\.a))$", name)`, evaluated with `$`
anchored at the very end of `core`: the string must end with `.so`, with
`.a`, or with `.so.<digits>` (the digit block `\d+` is then exactly the
maximal run of trailing digits, since the character before it must be a
dot), and the part matched by `.*` must contain no newline (`.` does not
match a newline).  Digits are modelled as ASCII digits. -/
def reCore (core : Str) : Bool :=
  if strSuf ".so".toList core then noNL (dropLastN core 3)
  else if strSuf ".a".toList core then noNL (dropLastN core 2)
  else
    let ds := core.reverse.takeWhile Char.isDigit
    !ds.isEmpty && strSuf ".so.".toList (dropLastN core ds.length) &&
      noNL (dropLastN core (ds.length + 4))

/-- Line 123: whether `re.match(r".*(?:(?:\.so(?:\.\d+)?)|(?:\.a))$", name)`
succeeds.  Python's `$` matches at the end of the string or just before a
single newline that ends the string, hence the second disjunct. -/
def nameMatches (name : Str) : Bool :=
  reCore name ||
    (match name.getLast? with
     | some c => decide (c = '\n') && reCore name.dropLast
     | none => false)

/-- The classifier as the specification words it: the name ends with `.so`,
with `.so.<digits>`, or with `.a`.  (Stated for comparison with the
implementation's `nameMatches`.) -/
def specNamePattern (name : Str) : Bool :=
  if strSuf ".so".toList name then true
  else if strSuf ".a".toList name then true
  else
    let ds := name.reverse.takeWhile Char.isDigit
    !ds.isEmpty && strSuf ".so.".toList (dropLastN name ds.length)

/-- Whether a path string is absolute, i.e. starts with a slash (POSIX
`Path.is_absolute`, line 127). -/
def isAbsolute : Str → Bool
  | [] => false
  | c :: _ => c = '/'

/-- A filesystem entry as seen by the `fix_absolute_links` loop: its
absolute path string, whether it is a symbolic link, and (for symlinks) the
target string returned by `os.readlink`, taken here already in its
`str(Path(...))` normalized form (line 126). -/
structure Entry where
  path : Str
  isSymlink : Bool
  target : Str
  deriving DecidableEq

/-- Lines 120-124: an entry is an eligible rewrite target iff it is a
symbolic link and its name matches the regex of line 123. -/
def eligible (e : Entry) : Bool :=
  e.isSymlink && nameMatches (baseName e.path)

/-- Line 129, the symlink relativizer:

`"../"*(len(Path(str(path).replace("/var/chroot/raspbian_buster_armhf","")).parent.parts)-1) + str(link_target).lstrip("/")`.

For an absolute path string `s` with `n` components,
`Path(s).parent.parts` is `("/", c1, …, c(n-1))` and so has length `n`;
hence the Python depth `len(Path(relStr).parent.parts) - 1` is
`(pathParts relStr).length - 1`. -/
def rel_link_target (pathStr target : Str) : Str :=
  (List.replicate ((pathParts (replaceAll pathStr chroot_dir [])).length - 1)
      "../".toList).flatten
    ++ lstripSlash target

/-- Lines 120-133 on a single traversed entry: `none` when the loop body
skips the entry (not a symlink, name does not match, or target already
relative), otherwise the new relative target installed by `ln -fs`. -/
def entryNewTarget (e : Entry) : Option Str :=
  if eligible e then
    if isAbsolute e.target then some (rel_link_target e.path e.target)
    else none
  else none

/-- Whether a path lies strictly under `<chroot_dir>/lib`, the scope of the
traversal `Path("/var/chroot/raspbian_buster_armhf/lib").rglob("*")` of
line 119. -/
def underLib (p : Str) : Bool := strPre (chroot_dir ++ "/lib/".toList) p

/-- Lines 118-133: `fix_absolute_links` over a filesystem modelled as the
list of entries in traversal order.  Result: the rewrites performed, as
pairs of the link's path and its new target. -/
def fix_absolute_links (fs : List Entry) : List (Str × Str) :=
  fs.filterMap (fun e =>
    if underLib e.path then (entryNewTarget e).map (fun t => (e.path, t))
    else none)

/-- Lines 164-167: the fixed `ld_search_paths` string (note that the
`usr/lib/arm-linux-gnueabihf` entry appears twice in the source text, once
at the end of line 165 and once on line 166). -/
def ld_search_paths : Str :=
  ("-L/var/chroot/raspbian_buster_armhf/lib " ++
   "-L/var/chroot/raspbian_buster_armhf/lib/arm-linux-gnueabihf " ++
   "-L/var/chroot/raspbian_buster_armhf/usr/lib " ++
   "-L/var/chroot/raspbian_buster_armhf/usr/lib/arm-linux-gnueabihf " ++
   "-L/var/chroot/raspbian_buster_armhf/usr/lib/arm-linux-gnueabihf " ++
   "-L/var/chroot/raspbian_buster_armhf/usr/lib/gcc/arm-linux-gnueabihf/8").toList

/-- The `%D` placeholder token of line 94. -/
def percentD : Str := "%D".toList

/-- The space-separated tokens of `ld_search_paths`. -/
def ldTokens : List Str := (splitChar ' ' ld_search_paths).filter (fun t => !t.isEmpty)

/-- The directories of the `-L<dir>` flags of `ld_search_paths`. -/
def ldDirs : List Str := ldTokens.map (fun t => t.drop 2)

/-- Line 94: the `%D` placeholder substitution step of `write_gcc_specs`,
`specs.replace("%D", ld_search_paths)`. -/
def substD (specs : Str) : Str := replaceAll specs percentD ld_search_paths

/-- Characters matched by the regex class `\w` (modelled for ASCII):
letters, digits and underscore. -/
def isWordChar (c : Char) : Bool := c.isAlphanum || c = '_'

/-- Length bound used for the termination of the scanner below. -/
theorem length_dropWhile_le (p : α → Bool) (l : List α) :
    (l.dropWhile p).length ≤ l.length := by
  induction l with
  | nil => simp [List.dropWhile]
  | cons a t ih =>
    by_cases h : p a
    · simp [List.dropWhile, h]; omega
    · simp [List.dropWhile, h]

/-- Lines 96-104, `replace_with_path`: look up the first entry of the
RootedTree (modelled as the list `fs` of absolute path strings in traversal
order, the order of `Path("/var/chroot/raspbian_buster_armhf").rglob(obj)`)
whose file name equals the matched token `obj`; return its absolute path,
or the token itself when the search is exhausted (`StopIteration`). -/
def replace_with_path (fs : List Str) (obj : Str) : Str :=
  match fs.find? (fun p => baseName p = obj) with
  | some p => p
  | none => obj

/-- Line 106, `re.sub(r"\w+\.o", replace_with_path, specs)`: scan the text
left to right; a match is a maximal run of word characters immediately
followed by `.o` (the run is maximal because `\w+` is greedy and a word
character can never match the following `\.`); each match is replaced by
`replace_with_path` of the matched token and scanning resumes after the
match. -/
def subWordO (fs : List Str) : Str → Str
  | [] => []
  | c :: rest =>
    if isWordChar c then
      if (rest.dropWhile isWordChar).take 2 = ['.', 'o'] then
        replace_with_path fs ((c :: rest.takeWhile isWordChar) ++ ['.', 'o']) ++
          subWordO fs ((rest.dropWhile isWordChar).drop 2)
      else
        (c :: rest.takeWhile isWordChar) ++ subWordO fs (rest.dropWhile isWordChar)
    else
      c :: subWordO fs rest
termination_by s => s.length
decreasing_by
  · have := length_dropWhile_le isWordChar rest
    simp; omega
  · have := length_dropWhile_le isWordChar rest
    simp; omega
  · simp

/-- Lines 93-106: the pure text pipeline of `write_gcc_specs` on the dumped
specs text: first the `%D` substitution of line 94, then the object-file
resolution of line 106. -/
def write_gcc_specs_text (fs : List Str) (specs : Str) : Str :=
  subWordO fs (substD specs)

/-- The six provisioning stages, one per function invoked by `main`
(lines 135-141): `install_host_deps`, `install_chroot`, `make_dirs`,
`write_cmake_toolchain` (the toolchain-descriptor emitter),
`write_gcc_specs`, `fix_absolute_links`. -/
inductive Stage
  | hostDeps
  | chrootReady
  | dirsReady
  | descriptorWritten
  | specsWritten
  | symlinksFixed
  deriving DecidableEq

/-- Lines 136-141: the stages in the order `main` invokes them:
`install_host_deps()`, `install_chroot()`, `make_dirs()`,
`write_cmake_toolchain()`, `write_gcc_specs()`, `fix_absolute_links()`. -/
def mainStages : List Stage :=
  [Stage.hostDeps, Stage.chrootReady, Stage.dirsReady,
   Stage.descriptorWritten, Stage.specsWritten, Stage.symlinksFixed]

/-- Sequential fail-stop execution: every stage shells out through `c`
(lines 54-55), which raises `CalledProcessError` on a non-zero exit; the
exception propagates through `main`, so execution covers the stages in
order up to and including the first failing one. -/
def runStages (fails : Stage → Bool) : List Stage → List Stage
  | [] => []
  | s :: rest => if fails s then [s] else s :: runStages fails rest

/-- The run of `main` under a given failure behaviour of the external
commands: the list of stages that actually execute. -/
def runMain (fails : Stage → Bool) : List Stage := runStages fails mainStages

/-- A well-formed path component: non-empty and slash-free. -/
def isCleanComp (c : Str) : Prop := c ≠ [] ∧ '/' ∉ c

instance (c : Str) : Decidable (isCleanComp c) := by
  unfold isCleanComp; infer_instance

/-- POSIX resolution of a relative target from a directory, component by
component: `..` removes the last directory component, `.` is skipped, any
other component is appended.  This is the resolution notion of the claim
("joining the link's directory with the new relative target and
normalizing `..` segments"). -/
def resolveRel (dir : List Str) (rel : List Str) : List Str :=
  rel.foldl
    (fun acc comp =>
      if comp = "..".toList then acc.dropLast
      else if comp = ".".toList then acc
      else acc ++ [comp])
    dir

/-! ### Lemmas about `replaceAll` -/

theorem strPre_self_append (p s : Str) : strPre p (p ++ s) = true := by
  induction p with
  | nil => simp [strPre]
  | cons a t ih => simp [strPre, ih]

theorem strPre_eq_append {p s : Str} (h : strPre p s = true) :
    ∃ t, s = p ++ t := by
  induction p generalizing s with
  | nil => exact ⟨s, rfl⟩
  | cons a t ih =>
    cases s with
    | nil => simp [strPre] at h
    | cons b u =>
      simp only [strPre, Bool.and_eq_true, decide_eq_true_eq] at h
      obtain ⟨rfl, h2⟩ := h
      obtain ⟨v, rfl⟩ := ih h2
      exact ⟨v, rfl⟩

theorem replaceAll_of_no_occ {s pat : Str} (rep : Str)
    (h : hasSubstr s pat = false) : replaceAll s pat rep = s := by
  induction s with
  | nil => cases pat <;> simp [replaceAll]
  | cons c rest ih =>
    cases pat with
    | nil => simp [hasSubstr, strPre] at h
    | cons p ps =>
      simp only [hasSubstr, Bool.or_eq_false_iff] at h
      rw [replaceAll]
      simp only [h.1, Bool.false_eq_true, if_false]
      rw [ih h.2]

theorem replaceAll_cons_of_not_pre {c : Char} {rest pat : Str} (rep : Str)
    (hne : pat ≠ []) (h : strPre pat (c :: rest) = false) :
    replaceAll (c :: rest) pat rep = c :: replaceAll rest pat rep := by
  cases pat with
  | nil => exact absurd rfl hne
  | cons p ps => rw [replaceAll, if_neg (by simp [h])]

theorem replaceAll_self_append {pat : Str} (hne : pat ≠ []) (s rep : Str) :
    replaceAll (pat ++ s) pat rep = rep ++ replaceAll s pat rep := by
  cases pat with
  | nil => exact absurd rfl hne
  | cons p ps =>
    have hcons : (p :: ps) ++ s = p :: (ps ++ s) := rfl
    have hpre : strPre (p :: ps) (p :: (ps ++ s)) = true := by
      have h := strPre_self_append (p :: ps) s
      rw [hcons] at h; exact h
    have hdrop : (p :: (ps ++ s)).drop (p :: ps).length = s := by
      rw [← hcons]; exact List.drop_left _ _
    rw [hcons, replaceAll, if_pos hpre, hdrop]

/-- Scanning `u ++ pat ++ w` when no occurrence of `pat` starts inside `u`:
the explicit occurrence is the first one found, is replaced, and scanning
resumes on `w`. -/
theorem replaceAll_mid (u w pat rep : Str) (hne : pat ≠ [])
    (h : ∀ i < u.length, strPre pat ((u ++ pat ++ w).drop i) = false) :
    replaceAll (u ++ pat ++ w) pat rep = u ++ rep ++ replaceAll w pat rep := by
  induction u with
  | nil => simpa using replaceAll_self_append hne w rep
  | cons c u' ih =>
    have h0 : strPre pat (c :: (u' ++ pat ++ w)) = false := by
      have := h 0 (by simp)
      simpa using this
    have h' : ∀ i < u'.length, strPre pat ((u' ++ pat ++ w).drop i) = false := by
      intro i hi
      have := h (i + 1) (by simp; omega)
      simpa using this
    have hcons : (c :: u') ++ pat ++ w = c :: (u' ++ pat ++ w) := by simp
    rw [hcons, replaceAll_cons_of_not_pre rep hne h0, ih h']
    simp

/-- Evaluation of the line-129 string replacement on a pathological link
path containing the chroot directory string a second time: Python's
`str.replace` removes both occurrences. -/
theorem replaceAll_chroot_twice :
    replaceAll
        "/var/chroot/raspbian_buster_armhf/lib/var/chroot/raspbian_buster_armhf/x.so".toList
        chroot_dir []
      = "/lib/x.so".toList := by
  have e :
      "/var/chroot/raspbian_buster_armhf/lib/var/chroot/raspbian_buster_armhf/x.so".toList
        = chroot_dir ++ ("/lib".toList ++ chroot_dir ++ "/x.so".toList) := by
    decide
  rw [e, replaceAll_self_append (by decide), List.nil_append,
    replaceAll_mid "/lib".toList "/x.so".toList chroot_dir [] (by decide)
      (by decide),
    replaceAll_of_no_occ [] (by decide)]
  decide

/-- Scanning `u ++ "%D" ++ w` when `u` contains no occurrence of `%D`:
the explicit occurrence is the first one found.  (An occurrence can never
straddle the boundary, because that would need the two characters `%D` to
overlap themselves.) -/
theorem replaceAll_percentD (u w rep : Str)
    (h : hasSubstr u percentD = false) :
    replaceAll (u ++ percentD ++ w) percentD rep
      = u ++ rep ++ replaceAll w percentD rep := by
  induction u with
  | nil =>
    simpa using replaceAll_self_append (by simp [percentD]) w rep
  | cons c u' ih =>
    simp only [hasSubstr, Bool.or_eq_false_iff] at h
    have hstep : strPre percentD (c :: (u' ++ percentD ++ w)) = false := by
      by_cases hc : ('%' : Char) = c
      · cases u' with
        | nil => simp [percentD, strPre]
        | cons d u'' =>
          by_cases hd : ('D' : Char) = d
          · exfalso
            have hocc : strPre percentD (c :: d :: u'') = true := by
              simp [percentD, strPre, hc, hd]
              exact ⟨hc, hd⟩
            simp [hocc] at h
          · simp [percentD, strPre, hd]
      · simp [percentD, strPre, hc]
    have hcons : (c :: u') ++ percentD ++ w = c :: (u' ++ percentD ++ w) := by
      simp
    rw [hcons,
      replaceAll_cons_of_not_pre rep (by simp [percentD]) hstep, ih h.2]
    simp

/-! ### Lemmas about path splitting and joining -/

theorem splitCharCore_clean_append (t s : Str) (h : '/' ∉ t) :
    splitCharCore '/' (t ++ s)
      = (t ++ (splitCharCore '/' s).1, (splitCharCore '/' s).2) := by
  induction t with
  | nil => simp
  | cons c t' ih =>
    have hc : c ≠ '/' := fun hcc => h (hcc ▸ List.mem_cons_self c t')
    have ht' : '/' ∉ t' := fun hm => h (List.mem_cons_of_mem c hm)
    simp [splitCharCore, hc, ih ht']

theorem splitChar_joinComps (cs : List Str) (hne : cs ≠ [])
    (hclean : ∀ c ∈ cs, isCleanComp c) :
    splitChar '/' (joinComps cs) = cs := by
  induction cs with
  | nil => exact absurd rfl hne
  | cons t cs' ih =>
    cases cs' with
    | nil =>
      have ht : '/' ∉ t := (hclean t (List.mem_cons_self t [])).2
      have h0 : splitCharCore '/' t = (t, []) := by
        have := splitCharCore_clean_append t [] ht
        simpa [splitCharCore] using this
      simp [joinComps, splitChar, h0]
    | cons u cs'' =>
      have ht : '/' ∉ t := (hclean t (List.mem_cons_self t _)).2
      have hrest : ∀ c ∈ u :: cs'', isCleanComp c := fun c hc =>
        hclean c (List.mem_cons_of_mem t hc)
      have hj : joinComps (t :: u :: cs'') = t ++ '/' :: joinComps (u :: cs'') := by
        simp [joinComps]
      rw [hj]
      have hih := ih (by simp) hrest
      simp only [splitChar] at hih ⊢
      rw [splitCharCore_clean_append t _ ht]
      simp only [splitCharCore, if_pos rfl]
      rw [List.cons.injEq] at hih
      simp [hih.1, hih.2]

theorem splitChar_slash_cons (s : Str) :
    splitChar '/' ('/' :: s) = [] :: splitChar '/' s := by
  simp [splitChar, splitCharCore]

theorem pathParts_joinAbs (cs : List Str) (hclean : ∀ c ∈ cs, isCleanComp c) :
    pathParts (joinAbs cs) = cs := by
  cases cs with
  | nil => simp [pathParts, joinAbs, joinComps, splitChar, splitCharCore]
  | cons t cs' =>
    have h := splitChar_joinComps (t :: cs') (by simp) hclean
    have hja : joinAbs (t :: cs') = '/' :: joinComps (t :: cs') := rfl
    rw [pathParts, hja, splitChar_slash_cons, h,
      List.filter_cons_of_neg (by simp), List.filter_eq_self.mpr]
    intro a ha
    have := (hclean a ha).1
    simpa using this

theorem pathParts_dotdot (s : Str) :
    pathParts ('.' :: '.' :: '/' :: s) = "..".toList :: pathParts s := by
  simp [pathParts, splitChar, splitCharCore]

theorem lstripSlash_cons_of_ne {c : Char} (s : Str) (h : c ≠ '/') :
    lstripSlash (c :: s) = c :: s := by
  simp [lstripSlash, h]

theorem lstripSlash_clean_append (t s : Str) (h1 : t ≠ []) (h2 : '/' ∉ t) :
    lstripSlash (t ++ s) = t ++ s := by
  cases t with
  | nil => exact absurd rfl h1
  | cons ch t' =>
    have hch : ch ≠ '/' := fun hc => h2 (hc ▸ List.mem_cons_self ch t')
    exact lstripSlash_cons_of_ne _ hch

theorem lstripSlash_joinComps (ts : List Str)
    (hclean : ∀ t ∈ ts, isCleanComp t) :
    lstripSlash (joinComps ts) = joinComps ts := by
  cases ts with
  | nil => simp [joinComps, lstripSlash]
  | cons t ts' =>
    have ht := hclean t (List.mem_cons_self t ts')
    cases ts' with
    | nil =>
      have := lstripSlash_clean_append t [] ht.1 ht.2
      simpa [joinComps] using this
    | cons u ts'' =>
      have hj : joinComps (t :: u :: ts'') = t ++ '/' :: joinComps (u :: ts'') := by
        simp [joinComps]
      rw [hj]
      exact lstripSlash_clean_append t _ ht.1 ht.2

theorem lstripSlash_joinAbs (ts : List Str) (hclean : ∀ t ∈ ts, isCleanComp t) :
    lstripSlash (joinAbs ts) = joinComps ts := by
  have hstep : lstripSlash (joinAbs ts) = lstripSlash (joinComps ts) := by
    simp [joinAbs, lstripSlash]
  rw [hstep, lstripSlash_joinComps ts hclean]

/-- Characterization of the relativizer of line 129 on a well-formed link
path and target: the depth is the number of directory components of the
link below the chroot root, and the new target is that many `../` segments
followed by the slash-stripped target.  The hypothesis `hno` excludes the
pathological case in which the chroot directory name reappears later in
the path, where Python's `str.replace` would remove that occurrence too. -/
theorem rel_link_target_eq (ds : List Str) (name : Str) (ts : List Str)
    (hds : ∀ c ∈ ds, isCleanComp c) (hn : isCleanComp name)
    (hts : ∀ t ∈ ts, isCleanComp t)
    (hno : hasSubstr (joinAbs (ds ++ [name])) chroot_dir = false) :
    rel_link_target (chroot_dir ++ joinAbs (ds ++ [name])) (joinAbs ts)
      = (List.replicate ds.length "../".toList).flatten ++ joinComps ts := by
  have hclean : ∀ c ∈ ds ++ [name], isCleanComp c := by
    intro c hc
    rcases List.mem_append.mp hc with h | h
    · exact hds c h
    · simpa [List.mem_singleton.mp h] using hn
  have hrepl : replaceAll (chroot_dir ++ joinAbs (ds ++ [name])) chroot_dir []
      = joinAbs (ds ++ [name]) := by
    rw [replaceAll_self_append (by simp [chroot_dir]) _ _,
      replaceAll_of_no_occ _ hno]
    simp
  have hparts : pathParts (joinAbs (ds ++ [name])) = ds ++ [name] :=
    pathParts_joinAbs _ hclean
  have hlen : (ds ++ [name]).length - 1 = ds.length := by simp
  rw [rel_link_target, hrepl, hparts, hlen, lstripSlash_joinAbs ts hts]

/-! ### Lemmas about relative-path resolution -/

theorem resolveRel_cons (dir : List Str) (comp : Str) (rel : List Str) :
    resolveRel dir (comp :: rel)
      = resolveRel
          (if comp = "..".toList then dir.dropLast
           else if comp = ".".toList then dir else dir ++ [comp]) rel := by
  simp [resolveRel]

theorem resolveRel_no_dots (pre : List Str) (ts : List Str)
    (h : ∀ t ∈ ts, t ≠ "..".toList ∧ t ≠ ".".toList) :
    resolveRel pre ts = pre ++ ts := by
  induction ts generalizing pre with
  | nil => simp [resolveRel]
  | cons t ts' ih =>
    have ht := h t (List.mem_cons_self t ts')
    rw [resolveRel_cons, if_neg ht.1, if_neg ht.2,
      ih _ (fun u hu => h u (List.mem_cons_of_mem t hu))]
    simp

theorem pathParts_dots_joinComps (d : Nat) (ts : List Str)
    (hclean : ∀ t ∈ ts, isCleanComp t) :
    pathParts ((List.replicate d "../".toList).flatten ++ joinComps ts)
      = List.replicate d "..".toList ++ ts := by
  induction d with
  | zero =>
    simp only [List.replicate, List.flatten_nil, List.nil_append]
    cases ts with
    | nil => simp [joinComps, pathParts, splitChar, splitCharCore]
    | cons t ts' =>
      rw [pathParts, splitChar_joinComps (t :: ts') (by simp) hclean,
        List.filter_eq_self.mpr]
      intro a ha
      have := (hclean a ha).1
      simpa using this
  | succ n ih =>
    have hflat :
        (List.replicate (n + 1) "../".toList).flatten ++ joinComps ts
          = '.' :: '.' :: '/' ::
              ((List.replicate n "../".toList).flatten ++ joinComps ts) := by
      simp [List.replicate_succ]
    rw [hflat, pathParts_dotdot, ih, List.replicate_succ]
    rfl

theorem isAbsolute_lstripSlash (t : Str) : isAbsolute (lstripSlash t) = false := by
  induction t with
  | nil => simp [lstripSlash, isAbsolute]
  | cons c rest ih =>
    by_cases hc : c = '/'
    · simp [lstripSlash, hc, ih]
    · simp [lstripSlash, hc, isAbsolute]

theorem isAbsolute_rel_link_target (p t : Str) :
    isAbsolute (rel_link_target p t) = false := by
  rw [rel_link_target]
  cases hd : (pathParts (replaceAll p chroot_dir [])).length - 1 with
  | zero => simpa using isAbsolute_lstripSlash t
  | succ n => simp [List.replicate_succ, isAbsolute]

theorem resolveRel_dots (ds : List Str) (pre : List Str) (ts : List Str) :
    resolveRel (pre ++ ds) (List.replicate ds.length "..".toList ++ ts)
      = resolveRel pre ts := by
  induction ds using List.reverseRecOn with
  | nil => simp
  | append_singleton ds' a ih =>
    have hlen : (ds' ++ [a]).length = ds'.length + 1 := by simp
    rw [hlen, List.replicate_succ, List.cons_append, resolveRel_cons,
      if_pos rfl]
    have hdrop : (pre ++ (ds' ++ [a])).dropLast = pre ++ ds' := by
      rw [← List.append_assoc, List.dropLast_concat]
    rw [hdrop]
    exact ih

/-! ### Lemmas about the eligibility classifier -/

theorem noNL_take_of_not_mem {s : Str} (m : Nat) (h : '\n' ∉ s) :
    noNL (s.take m) = true := by
  rw [noNL, List.all_eq_true]
  intro c hc
  have : c ∈ s := List.take_subset m s hc
  simp only [bne_iff_ne, ne_eq]
  intro hcc
  exact h (hcc ▸ this)

/-- On newline-free names, the regex of line 123 is exactly the suffix
pattern the specification describes. -/
theorem nameMatches_eq_specNamePattern {name : Str} (h : '\n' ∉ name) :
    nameMatches name = specNamePattern name := by
  have hlast : (match name.getLast? with
      | some c => decide (c = '\n') && reCore name.dropLast
      | none => false) = false := by
    cases hl : name.getLast? with
    | none => rfl
    | some a =>
      have ha : a ∈ name := List.mem_of_mem_getLast? hl
      have : a ≠ '\n' := fun hc => h (hc ▸ ha)
      simp [this]
  rw [nameMatches, hlast, Bool.or_false, reCore, specNamePattern]
  by_cases h1 : strSuf ".so".toList name = true
  · simp [h1, noNL_take_of_not_mem _ h, dropLastN]
  · by_cases h2 : strSuf ".a".toList name = true
    · simp [h1, h2, noNL_take_of_not_mem _ h, dropLastN]
    · simp only [h1, h2, Bool.false_eq_true, if_false]
      simp [dropLastN, noNL_take_of_not_mem _ h]

/-! ### Lemmas about the specs object-file scanner -/

theorem subWordO_nil (fs : List Str) : subWordO fs [] = [] := by
  rw [subWordO]

theorem subWordO_cons_not_word (fs : List Str) {c : Char} (rest : Str)
    (h : isWordChar c = false) :
    subWordO fs (c :: rest) = c :: subWordO fs rest := by
  rw [subWordO]
  simp [h]

theorem subWordO_cons_word_hit (fs : List Str) {c : Char} {rest r2 : Str}
    (h : isWordChar c = true)
    (h2 : rest.dropWhile isWordChar = '.' :: 'o' :: r2) :
    subWordO fs (c :: rest)
      = replace_with_path fs ((c :: rest.takeWhile isWordChar) ++ ['.', 'o'])
          ++ subWordO fs r2 := by
  rw [subWordO]
  simp [h, h2]

theorem subWordO_cons_word_miss (fs : List Str) {c : Char} {rest : Str}
    (h : isWordChar c = true)
    (h2 : (rest.dropWhile isWordChar).take 2 ≠ ['.', 'o']) :
    subWordO fs (c :: rest)
      = (c :: rest.takeWhile isWordChar)
          ++ subWordO fs (rest.dropWhile isWordChar) := by
  rw [subWordO]
  simp [h, h2]

/-- Scanning a specs text around one object-file token: a stretch of
non-word characters passes through unchanged, the token (a non-empty run
of word characters followed by `.o`) is handed to `replace_with_path`, and
scanning resumes after the token. -/
theorem subWordO_around_token (fs : List Str) (u run w : Str)
    (hu : ∀ c ∈ u, isWordChar c = false)
    (hrne : run ≠ []) (hrun : ∀ c ∈ run, isWordChar c = true) :
    subWordO fs (u ++ run ++ '.' :: 'o' :: w)
      = u ++ replace_with_path fs (run ++ ['.', 'o']) ++ subWordO fs w := by
  induction u with
  | nil =>
    cases run with
    | nil => exact absurd rfl hrne
    | cons rc rrest =>
      have h1 : isWordChar rc = true := hrun rc (List.mem_cons_self rc rrest)
      have hall : ∀ c ∈ rrest, isWordChar c = true := fun c hc =>
        hrun c (List.mem_cons_of_mem rc hc)
      have htake : (rrest ++ '.' :: 'o' :: w).takeWhile isWordChar = rrest := by
        rw [List.takeWhile_append_of_pos hall]
        simp [List.takeWhile, show isWordChar '.' = false from rfl]
      have hdropw : (rrest ++ '.' :: 'o' :: w).dropWhile isWordChar
          = '.' :: 'o' :: w := by
        rw [List.dropWhile_append_of_pos hall]
        simp [List.dropWhile, show isWordChar '.' = false from rfl]
      have hshape : ([] : Str) ++ (rc :: rrest) ++ '.' :: 'o' :: w
          = rc :: (rrest ++ '.' :: 'o' :: w) := by simp
      rw [hshape, subWordO_cons_word_hit fs h1 hdropw, htake]
      simp
  | cons c u' ih =>
    have hc : isWordChar c = false := hu c (List.mem_cons_self c u')
    have hu' : ∀ a ∈ u', isWordChar a = false := fun a ha =>
      hu a (List.mem_cons_of_mem c ha)
    have hshape : (c :: u') ++ run ++ '.' :: 'o' :: w
        = c :: (u' ++ run ++ '.' :: 'o' :: w) := by simp
    rw [hshape, subWordO_cons_not_word fs _ hc, ih hu']
    simp

/-- On a list with no satisfying element, `replace_with_path` returns the
token unchanged. -/
theorem replace_with_path_miss (fs : List Str) (obj : Str)
    (h : ∀ p ∈ fs, baseName p ≠ obj) : replace_with_path fs obj = obj := by
  rw [replace_with_path]
  have : fs.find? (fun p => baseName p = obj) = none :=
    List.find?_eq_none.mpr (by simpa using h)
  rw [this]

/-- The first entry whose name matches wins. -/
theorem replace_with_path_first (l1 : List Str) (p : Str) (l2 : List Str)
    (obj : Str) (hp : baseName p = obj) (h1 : ∀ q ∈ l1, baseName q ≠ obj) :
    replace_with_path (l1 ++ p :: l2) obj = p := by
  induction l1 with
  | nil =>
    rw [replace_with_path]
    simp [List.find?, hp]
  | cons q l1' ih =>
    have hq : baseName q ≠ obj := h1 q (List.mem_cons_self q l1')
    have h1' : ∀ r ∈ l1', baseName r ≠ obj := fun r hr =>
      h1 r (List.mem_cons_of_mem q hr)
    rw [replace_with_path] at ih ⊢
    simp only [List.cons_append, List.find?, decide_eq_true_eq]
    simp only [hq, if_false]
    exact ih h1'

/-! ### Lemmas about the orchestrator -/

theorem runStages_all_ok (fails : Stage → Bool) (l : List Stage)
    (h : ∀ s ∈ l, fails s = false) : runStages fails l = l := by
  induction l with
  | nil => rfl
  | cons s rest ih =>
    rw [runStages, if_neg (by simp [h s (List.mem_cons_self s rest)]),
      ih (fun q hq => h q (List.mem_cons_of_mem s hq))]

theorem runStages_first_fail (fails : Stage → Bool) (pre : List Stage)
    (s : Stage) (post : List Stage)
    (hpre : ∀ q ∈ pre, fails q = false) (hs : fails s = true) :
    runStages fails (pre ++ s :: post) = pre ++ [s] := by
  induction pre with
  | nil => simp [runStages, hs]
  | cons q pre' ih =>
    have hq : fails q = false := hpre q (List.mem_cons_self q pre')
    have hpre' : ∀ r ∈ pre', fails r = false := fun r hr =>
      hpre r (List.mem_cons_of_mem q hr)
    rw [List.cons_append, runStages, if_neg (by simp [hq]), ih hpre']
    rfl

/-! ### The claims -/

/-- C1 is false as stated: the eligible symlink at
`<root>/lib/var/chroot/raspbian_buster_armhf/x.so` — a path under the
RootedTree whose relative part contains the chroot directory string a
second time — has a matching name and the absolute target `/lib/y.so`,
yet line 129's `str.replace` removes every occurrence of the chroot
prefix, computing depth 1 instead of 4; the written target `../lib/y.so`
resolves from the link's directory to
`<root>/lib/var/chroot/lib/y.so`, not to `<root>/lib/y.so`. -/
theorem c1_counterexample :
    nameMatches "x.so".toList = true ∧
    isAbsolute "/lib/y.so".toList = true ∧
    "/var/chroot/raspbian_buster_armhf/lib/var/chroot/raspbian_buster_armhf/x.so".toList
      = chroot_dir ++ joinAbs (["lib".toList, "var".toList, "chroot".toList,
          "raspbian_buster_armhf".toList] ++ ["x.so".toList]) ∧
    resolveRel (rootParts ++ ["lib".toList, "var".toList, "chroot".toList,
        "raspbian_buster_armhf".toList])
        (pathParts (rel_link_target
          "/var/chroot/raspbian_buster_armhf/lib/var/chroot/raspbian_buster_armhf/x.so".toList
          "/lib/y.so".toList))
      ≠ rootParts ++ ["lib".toList, "y.so".toList] := by
  refine ⟨by decide, by decide, by decide, ?_⟩
  rw [rel_link_target, replaceAll_chroot_twice]
  decide

/-- C1 amended: for every symlink under the RootedTree whose name matches
the eligibility pattern (`.so`, `.so.<digits>`, `.a`), whose current
target is an absolute path, and whose path relative to the RootedTree root
does not itself contain the chroot directory string (hypothesis `hno`;
line 129's `str.replace` would also remove such a second occurrence), the
replacement target computed by the relativizer, when resolved starting
from the link's own directory, denotes the same file as the original
absolute target reinterpreted relative to the RootedTree root: joining
the link's directory with the new relative target and normalizing `..`
segments equals the RootedTree path joined with the old absolute target.
The link is at directory components `ds` with file name `name` below the
chroot root, and the target has components `ts`. -/
theorem c1_relativized_target_resolves (ds : List Str) (name : Str)
    (ts : List Str)
    (hds : ∀ c ∈ ds, isCleanComp c) (hn : isCleanComp name)
    (hts : ∀ t ∈ ts, isCleanComp t)
    (hnd : ∀ t ∈ ts, t ≠ "..".toList ∧ t ≠ ".".toList)
    (_hmatch : nameMatches name = true)
    (hno : hasSubstr (joinAbs (ds ++ [name])) chroot_dir = false) :
    resolveRel (rootParts ++ ds)
        (pathParts (rel_link_target (chroot_dir ++ joinAbs (ds ++ [name]))
          (joinAbs ts)))
      = rootParts ++ ts := by
  rw [rel_link_target_eq ds name ts hds hn hts hno,
    pathParts_dots_joinComps ds.length ts hts,
    resolveRel_dots, resolveRel_no_dots _ _ hnd]

theorem c1_witness :
    resolveRel (rootParts ++ ["lib".toList, "arm-linux-gnueabihf".toList])
        (pathParts (rel_link_target
          (chroot_dir ++ joinAbs
            (["lib".toList, "arm-linux-gnueabihf".toList] ++ ["libc.so".toList]))
          (joinAbs ["lib".toList, "arm-linux-gnueabihf".toList,
            "libc.so.6".toList])))
      = rootParts ++ ["lib".toList, "arm-linux-gnueabihf".toList,
          "libc.so.6".toList] :=
  c1_relativized_target_resolves _ _ _ (by decide) (by decide) (by decide)
    (by decide) (by decide) (by decide)

/-- C2 is false as stated: for the symlink at
`<root>/lib/arm-linux-gnueabihf/libc.so` with absolute target
`/lib/arm-linux-gnueabihf/libc.so.6`, the relativizer does not produce
`../libc.so.6` (it produces a target two levels up, see the amended
theorem). -/
theorem c2_counterexample :
    rel_link_target
        "/var/chroot/raspbian_buster_armhf/lib/arm-linux-gnueabihf/libc.so".toList
        "/lib/arm-linux-gnueabihf/libc.so.6".toList
      ≠ "../libc.so.6".toList := by
  have e1 :
      "/var/chroot/raspbian_buster_armhf/lib/arm-linux-gnueabihf/libc.so".toList
        = chroot_dir ++ joinAbs
            (["lib".toList, "arm-linux-gnueabihf".toList]
              ++ ["libc.so".toList]) := by decide
  have e2 : "/lib/arm-linux-gnueabihf/libc.so.6".toList
      = joinAbs ["lib".toList, "arm-linux-gnueabihf".toList,
          "libc.so.6".toList] := by decide
  rw [e1, e2, rel_link_target_eq _ _ _ (by decide) (by decide) (by decide)
    (by decide)]
  decide

/-- C2 amended: for the symlink at `<root>/lib/arm-linux-gnueabihf/libc.so`
with absolute target `/lib/arm-linux-gnueabihf/libc.so.6`, the relativizer
produces exactly `../../lib/arm-linux-gnueabihf/libc.so.6` (which resolves
from the link's directory to the same file inside the RootedTree). -/
theorem c2_amended_replacement :
    rel_link_target
        "/var/chroot/raspbian_buster_armhf/lib/arm-linux-gnueabihf/libc.so".toList
        "/lib/arm-linux-gnueabihf/libc.so.6".toList
      = "../../lib/arm-linux-gnueabihf/libc.so.6".toList := by
  have e1 :
      "/var/chroot/raspbian_buster_armhf/lib/arm-linux-gnueabihf/libc.so".toList
        = chroot_dir ++ joinAbs
            (["lib".toList, "arm-linux-gnueabihf".toList]
              ++ ["libc.so".toList]) := by decide
  have e2 : "/lib/arm-linux-gnueabihf/libc.so.6".toList
      = joinAbs ["lib".toList, "arm-linux-gnueabihf".toList,
          "libc.so.6".toList] := by decide
  rw [e1, e2, rel_link_target_eq _ _ _ (by decide) (by decide) (by decide)
    (by decide)]
  decide

/-- C7 is false as stated: at the eligible symlink
`<root>/lib/var/chroot/raspbian_buster_armhf/x.so` with absolute target
`/lib/y.so`, the link's path relative to the RootedTree root has 4
components besides the filename, but the code prepends only one `../`
segment, because line 129's `str.replace` also removes the second
occurrence of the chroot directory string from the link's path. -/
theorem c7_counterexample :
    rel_link_target
        "/var/chroot/raspbian_buster_armhf/lib/var/chroot/raspbian_buster_armhf/x.so".toList
        "/lib/y.so".toList
      ≠ (List.replicate 4 "../".toList).flatten
          ++ lstripSlash "/lib/y.so".toList ∧
    (pathParts (joinAbs (["lib".toList, "var".toList, "chroot".toList,
        "raspbian_buster_armhf".toList] ++ ["x.so".toList]))).length - 1
      = 4 := by
  constructor
  · rw [rel_link_target, replaceAll_chroot_twice]
    decide
  · decide

/-- C7 amended: for every eligible symlink with an absolute target whose
path relative to the RootedTree root does not itself contain the chroot
directory string (hypothesis `hno`; line 129's `str.replace` would also
remove such a second occurrence), the replacement target string equals
`../` repeated `d` times followed by the original target with its leading
slash stripped, where `d` is the number of path components in the link's
path relative to the RootedTree root, not counting the filename itself
(here `ds.length`). -/
theorem c7_depth_formula (ds : List Str) (name : Str) (ts : List Str)
    (hds : ∀ c ∈ ds, isCleanComp c) (hn : isCleanComp name)
    (hts : ∀ t ∈ ts, isCleanComp t)
    (_hmatch : nameMatches name = true)
    (hno : hasSubstr (joinAbs (ds ++ [name])) chroot_dir = false) :
    rel_link_target (chroot_dir ++ joinAbs (ds ++ [name])) (joinAbs ts)
      = (List.replicate ds.length "../".toList).flatten
          ++ lstripSlash (joinAbs ts) := by
  rw [rel_link_target_eq ds name ts hds hn hts hno,
    lstripSlash_joinAbs ts hts]

theorem c7_witness :
    rel_link_target
        (chroot_dir ++ joinAbs (["lib".toList] ++ ["libfoo.a".toList]))
        (joinAbs ["usr".toList, "lib".toList, "libbar.so.3".toList])
      = (List.replicate 1 "../".toList).flatten
          ++ lstripSlash (joinAbs ["usr".toList, "lib".toList,
              "libbar.so.3".toList]) :=
  c7_depth_formula ["lib".toList] _ _ (by decide) (by decide) (by decide)
    (by decide) (by decide)

/-- C4: the `%D` placeholder is replaced verbatim by the fixed
`ld_search_paths` concatenation of `-L<dir>` flags, and the distinct
directories of those flags are exactly the five fixed library directories
under the RootedTree: `lib`, `lib/arm-linux-gnueabihf`, `usr/lib`,
`usr/lib/arm-linux-gnueabihf` and the internal gcc runtime directory
`usr/lib/gcc/arm-linux-gnueabihf/8`. -/
theorem c4_percentD_substitution :
    (∀ u w : Str, hasSubstr u percentD = false →
      substD (u ++ percentD ++ w) = u ++ ld_search_paths ++ substD w) ∧
    (∀ t ∈ ldTokens, strPre "-L".toList t = true) ∧
    ldDirs.dedup
      = [chroot_dir ++ "/lib".toList,
         chroot_dir ++ "/lib/arm-linux-gnueabihf".toList,
         chroot_dir ++ "/usr/lib".toList,
         chroot_dir ++ "/usr/lib/arm-linux-gnueabihf".toList,
         chroot_dir ++ "/usr/lib/gcc/arm-linux-gnueabihf/8".toList] := by
  refine ⟨fun u w h => replaceAll_percentD u w ld_search_paths h, ?_, ?_⟩
  · decide
  · decide

theorem c4_witness :
    substD ("x ".toList ++ percentD ++ " y".toList)
      = "x ".toList ++ ld_search_paths ++ substD " y".toList :=
  c4_percentD_substitution.1 "x ".toList " y".toList (by decide)

/-- C9: on a specs text with no occurrence of the `%D` placeholder, the
substitution step is the identity. -/
theorem c9_substD_noop (specs : Str)
    (h : hasSubstr specs percentD = false) : substD specs = specs :=
  replaceAll_of_no_occ ld_search_paths h

theorem c9_witness :
    substD "already substituted specs text".toList
      = "already substituted specs text".toList :=
  c9_substD_noop _ (by decide)

/-- C5: every token of the specs text made of word characters followed by
`.o` is handed to the resolver; if the RootedTree traversal (`fs`, in
traversal order) contains at least one entry with that file name, the
token is replaced by the absolute path of the first such entry; if it
contains none, the token is left exactly unchanged (and no error is
raised, the function is total). -/
theorem c5_object_file_resolution (fs : List Str) (u run w : Str)
    (hu : ∀ c ∈ u, isWordChar c = false) (hrne : run ≠ [])
    (hrun : ∀ c ∈ run, isWordChar c = true) :
    (subWordO fs (u ++ run ++ '.' :: 'o' :: w)
      = u ++ replace_with_path fs (run ++ ['.', 'o']) ++ subWordO fs w) ∧
    ((∀ p ∈ fs, baseName p ≠ run ++ ['.', 'o']) →
      replace_with_path fs (run ++ ['.', 'o']) = run ++ ['.', 'o']) ∧
    (∀ l1 p l2, fs = l1 ++ p :: l2 → baseName p = run ++ ['.', 'o'] →
      (∀ q ∈ l1, baseName q ≠ run ++ ['.', 'o']) →
      replace_with_path fs (run ++ ['.', 'o']) = p) := by
  refine ⟨subWordO_around_token fs u run w hu hrne hrun, ?_, ?_⟩
  · exact replace_with_path_miss fs _
  · intro l1 p l2 hfs hp h1
    rw [hfs]
    exact replace_with_path_first l1 p l2 _ hp h1

theorem c5_witness :
    subWordO ["/var/chroot/raspbian_buster_armhf/usr/lib/crti.o".toList]
        (" ".toList ++ "crti".toList ++ '.' :: 'o' :: " z".toList)
      = " ".toList
          ++ replace_with_path
              ["/var/chroot/raspbian_buster_armhf/usr/lib/crti.o".toList]
              ("crti".toList ++ ['.', 'o'])
          ++ subWordO
              ["/var/chroot/raspbian_buster_armhf/usr/lib/crti.o".toList]
              " z".toList :=
  (c5_object_file_resolution _ _ _ _ (by decide) (by decide) (by decide)).1

/-- C6 is false as stated: the entry at `<root>/lib/` named `"x.so\n"`
(a legal file name containing a trailing newline) is classified eligible by
the code, because Python's `$` also matches just before a newline that
ends the string, although the name does not end with `.so`, `.so.<digits>`
or `.a`. -/
theorem c6_counterexample :
    eligible { path := "/var/chroot/raspbian_buster_armhf/lib/x.so\n".toList,
               isSymlink := true, target := "/lib/y".toList } = true ∧
    specNamePattern
        (baseName "/var/chroot/raspbian_buster_armhf/lib/x.so\n".toList)
      = false := by
  decide

/-- C6 amended: for every entry whose name contains no newline character,
the entry is classified eligible iff it is a symbolic link and its name
ends with `.so`, `.so.<digits>`, or `.a`; every non-symlink and every
symlink with a non-matching name is skipped with no modification. -/
theorem c6_eligibility (e : Entry) (h : '\n' ∉ baseName e.path) :
    (eligible e = true ↔
      (e.isSymlink = true ∧ specNamePattern (baseName e.path) = true)) ∧
    (eligible e = false → entryNewTarget e = none) := by
  constructor
  · rw [eligible, nameMatches_eq_specNamePattern h, Bool.and_eq_true]
  · intro hne
    simp [entryNewTarget, hne]

theorem c6_witness :
    entryNewTarget
        { path := "/var/chroot/raspbian_buster_armhf/lib/notes.txt".toList,
          isSymlink := true, target := "/etc/x".toList } = none :=
  (c6_eligibility _ (by decide)).2 (by decide)

/-- C8: a symlink whose current target is relative is left unchanged, an
entry that is not eligible is left unchanged, and every target the fixup
writes is itself relative, so a second run over an already-fixed tree
changes no targets. -/
theorem c8_frame (e : Entry) :
    (isAbsolute e.target = false → entryNewTarget e = none) ∧
    (eligible e = false → entryNewTarget e = none) ∧
    (∀ t', entryNewTarget e = some t' →
      isAbsolute t' = false ∧
      entryNewTarget { e with target := t' } = none) := by
  refine ⟨?_, ?_, ?_⟩
  · intro h
    simp [entryNewTarget, h]
  · intro h
    simp [entryNewTarget, h]
  · intro t' h
    by_cases he : eligible e = true
    · by_cases ha : isAbsolute e.target = true
      · rw [entryNewTarget, if_pos he, if_pos ha, Option.some.injEq] at h
        have habs : isAbsolute t' = false :=
          h ▸ isAbsolute_rel_link_target e.path e.target
        have he2 : eligible { e with target := t' } = eligible e := rfl
        refine ⟨habs, ?_⟩
        rw [entryNewTarget, he2, if_pos he, if_neg (by simp [habs])]
      · rw [entryNewTarget, if_pos he,
          if_neg (by simp [Bool.not_eq_true] at ha ⊢; exact ha)] at h
        exact absurd h (by simp)
    · rw [entryNewTarget,
        if_neg (by simp [Bool.not_eq_true] at he ⊢; exact he)] at h
      exact absurd h (by simp)

theorem c8_witness :
    entryNewTarget
        { path := "/var/chroot/raspbian_buster_armhf/lib/libz.so".toList,
          isSymlink := true, target := "libz.so.1".toList } = none :=
  (c8_frame _).1 (by decide)

/-- C10: the symlink fixup traverses only the `lib` subdirectory of the
RootedTree; a rewrite is never recorded for a path that does not lie under
`<root>/lib/`, whatever entries the filesystem contains (in particular an
eligible symlink under `usr/lib` is never rewritten). -/
theorem c10_scope_lib_only (fs : List Entry) (p t : Str)
    (h : underLib p = false) : (p, t) ∉ fix_absolute_links fs := by
  intro hmem
  rw [fix_absolute_links, List.mem_filterMap] at hmem
  obtain ⟨e', _he', hmap⟩ := hmem
  by_cases hu : underLib e'.path = true
  · rw [if_pos hu] at hmap
    cases hn : entryNewTarget e' with
    | none => rw [hn] at hmap; exact absurd hmap (by simp)
    | some t0 =>
      rw [hn, Option.map_some', Option.some.injEq, Prod.mk.injEq] at hmap
      rw [← hmap.1, hu] at h
      exact absurd h (by simp)
  · rw [if_neg (by simp [Bool.not_eq_true] at hu ⊢; exact hu)] at hmap
    exact absurd hmap (by simp)

theorem c10_witness :
    ("/var/chroot/raspbian_buster_armhf/usr/lib/libm.so".toList,
      "../../lib/x".toList)
      ∉ fix_absolute_links
          [{ path := "/var/chroot/raspbian_buster_armhf/usr/lib/libm.so".toList,
             isSymlink := true, target := "/lib/x".toList }] :=
  c10_scope_lib_only _ _ _ (by decide)

/-- C3 is false as stated: with no failing command the run executes all six
stages, but the invocation order of `main` is not the claimed order
host-deps, directories, chroot, descriptor, specs, symlinks —
`install_chroot()` (line 137) runs before `make_dirs()` (line 138). -/
theorem c3_counterexample :
    runMain (fun _ => false) = mainStages ∧
    mainStages ≠ [Stage.hostDeps, Stage.dirsReady, Stage.chrootReady,
      Stage.descriptorWritten, Stage.specsWritten, Stage.symlinksFixed] := by
  decide

/-- C3 amended: the orchestrator executes its six stages strictly
sequentially in the order host-deps-installed, chroot-ready,
directories-ready, descriptor-written, specs-written, symlinks-fixed;
when no stage fails the whole sequence runs, and when a stage's external
command exits non-zero the run terminates with that stage and no later
stage executes. -/
theorem c3_sequencing (fails : Stage → Bool) :
    ((∀ s ∈ mainStages, fails s = false) → runMain fails = mainStages) ∧
    (∀ pre s post, mainStages = pre ++ s :: post →
      (∀ q ∈ pre, fails q = false) → fails s = true →
      runMain fails = pre ++ [s] ∧ ∀ q ∈ post, q ∉ pre ++ [s]) := by
  constructor
  · intro h
    exact runStages_all_ok fails mainStages h
  · intro pre s post hsplit hpre hs
    have hnd : (pre ++ s :: post).Nodup := by
      rw [← hsplit]; decide
    constructor
    · rw [runMain, hsplit]
      exact runStages_first_fail fails pre s post hpre hs
    · intro q hq hmem
      rcases List.nodup_append.mp hnd with ⟨_, hnd2, hdisj⟩
      rcases List.mem_append.mp hmem with hq1 | hq2
      · exact hdisj hq1 (List.mem_cons_of_mem s hq)
      · have : q = s := by simpa using hq2
        rcases List.nodup_cons.mp hnd2 with ⟨hns, _⟩
        exact hns (this ▸ hq)

theorem c3_witness :
    runMain (fun s => decide (s = Stage.dirsReady))
        = [Stage.hostDeps, Stage.chrootReady, Stage.dirsReady] ∧
    Stage.specsWritten
      ∉ [Stage.hostDeps, Stage.chrootReady] ++ [Stage.dirsReady] := by
  have h := (c3_sequencing (fun s => decide (s = Stage.dirsReady))).2
    [Stage.hostDeps, Stage.chrootReady] Stage.dirsReady
    [Stage.descriptorWritten, Stage.specsWritten, Stage.symlinksFixed]
    (by decide) (by decide) (by decide)
  exact ⟨h.1, h.2 Stage.specsWritten (by decide)⟩

end RPiCross
